import Mathlib

/-!
Verification of the sign-board display relay (`app.py`): script segmentation,
RGB565 pixel packing, frame segmentation into tiles, packet framing, and the
connection registry / broadcast engine.  All definitions are shallow
embeddings of the corresponding Python functions; bytes and pixels are
modelled as `Nat`, matrices as row-major `List (List Nat)`.
-/

namespace SignBoard

/-- `MAX_SEGMENT_WIDTH` from the source configuration block. -/
def MAX_SEGMENT_WIDTH : Nat := 192

/-- The segmentation loop shared by `send_text_segmented` and the binary
branch of `websocket_handler`: starting from column `x`, while `x < total_w`
emit `(x, seg_w)` with `seg_w = min(MAX_SEGMENT_WIDTH, total_w - x)` and
advance `x` by `seg_w`. -/
def segments (total_w x : Nat) : List (Nat × Nat) :=
  if _h : x < total_w then
    (x, min MAX_SEGMENT_WIDTH (total_w - x)) ::
      segments total_w (x + min MAX_SEGMENT_WIDTH (total_w - x))
  else []
termination_by total_w - x
decreasing_by
  simp only [MAX_SEGMENT_WIDTH]
  omega

/-- Column slice `m[:, x:x+w]` of a row-major matrix. -/
def sliceCols (m : List (List Nat)) (x w : Nat) : List (List Nat) :=
  m.map (fun row => (row.drop x).take w)

/-- Concatenating the emitted tiles along x, in emission order (row-wise
join of the column slices). -/
def concatSegs (segs : List (Nat × Nat)) (m : List (List Nat)) : List (List Nat) :=
  m.map (fun row => (segs.map (fun p => (row.drop p.1).take p.2)).flatten)

theorem segments_getElem? (total_w : Nat) :
    ∀ (i x : Nat),
      (segments total_w x)[i]? =
        if x + MAX_SEGMENT_WIDTH * i < total_w then
          some (x + MAX_SEGMENT_WIDTH * i,
                min MAX_SEGMENT_WIDTH (total_w - (x + MAX_SEGMENT_WIDTH * i)))
        else none := by
  intro i
  induction i with
  | zero =>
    intro x
    rw [segments]
    by_cases h : x < total_w
    · simp [h]
    · simp [h]
  | succ i ih =>
    intro x
    rw [segments]
    by_cases h : x < total_w
    · simp only [h, dite_true, List.getElem?_cons_succ]
      rw [ih]
      simp only [MAX_SEGMENT_WIDTH] at *
      by_cases h2 : total_w - x ≤ 192
      · have hmin : min 192 (total_w - x) = total_w - x := by omega
        rw [hmin]
        have hc1 : ¬ (x + (total_w - x) + 192 * i < total_w) := by omega
        have hc2 : ¬ (x + 192 * (i + 1) < total_w) := by omega
        simp [hc1, hc2]
      · have hmin : min 192 (total_w - x) = 192 := by omega
        rw [hmin]
        have harith : x + 192 + 192 * i = x + 192 * (i + 1) := by ring
        rw [harith]
    · simp only [h, dite_false, List.getElem?_nil]
      have hc : ¬ (x + MAX_SEGMENT_WIDTH * (i + 1) < total_w) := by
        simp only [MAX_SEGMENT_WIDTH]; omega
      simp [hc]

theorem join_slices_aux (total_w : Nat) (row : List Nat) (hlen : row.length = total_w) :
    ∀ d x, total_w - x ≤ d →
      ((segments total_w x).map (fun p => (row.drop p.1).take p.2)).flatten = row.drop x := by
  intro d
  induction d with
  | zero =>
    intro x hx
    have h : ¬ x < total_w := by omega
    rw [segments]
    simp only [h, dite_false, List.map_nil, List.flatten_nil]
    symm
    exact List.drop_eq_nil_of_le (by omega)
  | succ d ih =>
    intro x hx
    rw [segments]
    by_cases h : x < total_w
    · simp only [h, dite_true, List.map_cons, List.flatten_cons]
      have hge : 1 ≤ min MAX_SEGMENT_WIDTH (total_w - x) := by
        simp only [MAX_SEGMENT_WIDTH]; omega
      rw [ih (x + min MAX_SEGMENT_WIDTH (total_w - x)) (by omega)]
      exact List.drop_take_append_drop row x (min MAX_SEGMENT_WIDTH (total_w - x))
    · simp only [h, dite_false, List.map_nil, List.flatten_nil]
      symm
      exact List.drop_eq_nil_of_le (by omega)

/-- C1: the Frame Segmenter emits tiles left to right at x-offsets
`0, 192, 384, …`, each of width `min(192, remaining_width)`; for a total
width of 500 it emits exactly the three tiles `(0,192), (192,192), (384,116)`;
and concatenating the emitted column slices in emission order reconstructs
the original matrix exactly. -/
theorem frame_segmenter_correct (W : Nat) (m : List (List Nat))
    (hW : 0 < W) (hrows : ∀ row ∈ m, row.length = W) :
    (∀ i : Nat,
      (segments W 0)[i]? =
        if MAX_SEGMENT_WIDTH * i < W then
          some (MAX_SEGMENT_WIDTH * i, min MAX_SEGMENT_WIDTH (W - MAX_SEGMENT_WIDTH * i))
        else none)
    ∧ segments 500 0 = [(0, 192), (192, 192), (384, 116)]
    ∧ concatSegs (segments W 0) m = m := by
  refine ⟨?_, ?_, ?_⟩
  · intro i
    have h := segments_getElem? W i 0
    simpa using h
  · simp [segments, MAX_SEGMENT_WIDTH]
  · unfold concatSegs
    conv_rhs => rw [← List.map_id m]
    apply List.map_congr_left
    intro row hrow
    have h := join_slices_aux W row (hrows row hrow) W 0 (by omega)
    simpa using h

/-- Witness for `frame_segmenter_correct` at `W = 500` with a concrete
single-row matrix. -/
theorem frame_segmenter_correct_witness :
    segments 500 0 = [(0, 192), (192, 192), (384, 116)]
    ∧ concatSegs (segments 500 0) [List.replicate 500 7] = [List.replicate 500 7] := by
  have h := frame_segmenter_correct 500 [List.replicate 500 7] (by omega)
    (by
      intro row hrow
      rw [List.mem_singleton] at hrow
      subst hrow
      rw [List.length_replicate])
  exact ⟨h.2.1, h.2.2⟩

/-! ## Packet Framer (`send_segment`) -/

/-- The 10-byte header built by `send_segment`: tag bytes `'S'` (83) and
`'G'` (71), then `total_w`, `seg_x`, `seg_w`, `h` as little-endian 16-bit
fields (`v & 0xFF` and `(v >> 8) & 0xFF`, written here as `% 256` and
`/ 256 % 256` on `Nat`). -/
def segment_header (total_w seg_x seg_w h : Nat) : List Nat :=
  [83, 71,
   total_w % 256, total_w / 256 % 256,
   seg_x % 256, seg_x / 256 % 256,
   seg_w % 256, seg_w / 256 % 256,
   h % 256, h / 256 % 256]

/-- `seg.tobytes(order='C')`: the row-major pixel values, two bytes per
16-bit pixel, low byte first (native little-endian order). -/
def matrixBytes (m : List (List Nat)) : List Nat :=
  m.flatten.flatMap (fun v => [v % 256, v / 256 % 256])

/-- The full packet built by `send_segment`: header (with `h, seg_w =
seg.shape`) followed by the raw pixel payload. -/
def segment_packet (total_w seg_x : Nat) (seg : List (List Nat)) : List Nat :=
  segment_header total_w seg_x (seg.headD []).length seg.length ++ matrixBytes seg

/-- Decoding one little-endian 16-bit field from its two bytes. -/
def decode16 (lo hi : Nat) : Nat := lo + 256 * hi

/-- Decoding the four header fields of a packet (bytes 2-9). -/
def decode_header (pkt : List Nat) : Nat × Nat × Nat × Nat :=
  match pkt with
  | _ :: _ :: b2 :: b3 :: b4 :: b5 :: b6 :: b7 :: b8 :: b9 :: _ =>
      (decode16 b2 b3, decode16 b4 b5, decode16 b6 b7, decode16 b8 b9)
  | _ => (0, 0, 0, 0)

/-- Decoding a byte stream as consecutive little-endian 16-bit values. -/
def decode16s : List Nat → List Nat
  | lo :: hi :: rest => (lo + 256 * hi) :: decode16s rest
  | _ => []

theorem decode16s_matrixBytes :
    ∀ (vs : List Nat), (∀ v ∈ vs, v < 65536) →
      decode16s (vs.flatMap (fun v => [v % 256, v / 256 % 256])) = vs := by
  intro vs
  induction vs with
  | nil => intro _; rfl
  | cons v rest ih =>
    intro hv
    simp only [List.flatMap_cons, List.cons_append, List.nil_append]
    rw [decode16s]
    rw [ih (fun w hw => hv w (List.mem_cons_of_mem v hw))]
    have hv0 := hv v (List.mem_cons_self v rest)
    have : v % 256 + 256 * (v / 256 % 256) = v := by omega
    rw [this]

theorem matrixBytes_length :
    ∀ (vs : List Nat), (vs.flatMap (fun v => [v % 256, v / 256 % 256])).length = 2 * vs.length := by
  intro vs
  induction vs with
  | nil => rfl
  | cons v rest ih =>
    simp only [List.flatMap_cons, List.cons_append, List.nil_append,
      List.length_append, List.length_cons, List.length_nil, ih]
    omega

/-- C2: the `send_segment` packet starts with the 2-byte ASCII tag `SG`;
bytes 2-9 are `total_w`, `x_offset`, `tile_width`, `height` as little-endian
16-bit fields and decoding them round-trips when each fits in 16 bits; the
payload after the header is exactly the tile's pixels in row-major order,
one 16-bit value (two bytes) per pixel, with no padding. -/
theorem packet_framer_roundtrip (total_w seg_x : Nat) (seg : List (List Nat))
    (h1 : total_w < 65536) (h2 : seg_x < 65536)
    (h3 : (seg.headD []).length < 65536) (h4 : seg.length < 65536)
    (h5 : ∀ v ∈ seg.flatten, v < 65536) :
    (segment_packet total_w seg_x seg).take 2 = [83, 71]
    ∧ decode_header (segment_packet total_w seg_x seg) =
        (total_w, seg_x, (seg.headD []).length, seg.length)
    ∧ (segment_packet total_w seg_x seg).drop 10 = matrixBytes seg
    ∧ decode16s ((segment_packet total_w seg_x seg).drop 10) = seg.flatten
    ∧ (segment_packet total_w seg_x seg).length = 10 + 2 * seg.flatten.length := by
  refine ⟨?_, ?_, ?_, ?_, ?_⟩
  · rfl
  · show decode_header (segment_header _ _ _ _ ++ matrixBytes seg) = _
    have hd : decode_header (segment_header total_w seg_x (seg.headD []).length
        seg.length ++ matrixBytes seg) =
        (total_w % 256 + 256 * (total_w / 256 % 256),
         seg_x % 256 + 256 * (seg_x / 256 % 256),
         (seg.headD []).length % 256 + 256 * ((seg.headD []).length / 256 % 256),
         seg.length % 256 + 256 * (seg.length / 256 % 256)) := rfl
    rw [hd]
    refine Prod.ext ?_ (Prod.ext ?_ (Prod.ext ?_ ?_)) <;> simp only [] <;> omega
  · show (segment_header _ _ _ _ ++ matrixBytes seg).drop 10 = _
    rfl
  · show decode16s ((segment_header _ _ _ _ ++ matrixBytes seg).drop 10) = _
    have hd : (segment_header total_w seg_x (seg.headD []).length seg.length ++
        matrixBytes seg).drop 10 = matrixBytes seg := rfl
    rw [hd]
    exact decode16s_matrixBytes seg.flatten h5
  · unfold segment_packet
    rw [List.length_append]
    unfold matrixBytes
    rw [matrixBytes_length]
    rfl

/-- Witness for `packet_framer_roundtrip` on a concrete 2x2 tile. -/
theorem packet_framer_roundtrip_witness :
    decode_header (segment_packet 500 192 [[1, 2], [3, 4]]) = (500, 192, 2, 2)
    ∧ decode16s ((segment_packet 500 192 [[1, 2], [3, 4]]).drop 10) = [1, 2, 3, 4] := by
  have h := packet_framer_roundtrip 500 192 [[1, 2], [3, 4]]
    (by omega) (by omega) (by decide) (by decide) (by decide)
  refine ⟨h.2.1, ?_⟩
  rw [h.2.2.2.1]
  rfl

/-! ## Pixel Codec (`surface_to_rgb565`) -/

/-- A Cairo ARGB32 surface as seen by `surface_to_rgb565`: height, width,
row stride and the raw byte buffer (each entry a byte, BGRA order per
pixel). -/
structure Surface where
  height : Nat
  width : Nat
  stride : Nat
  data : List Nat

/-- The per-pixel body of `surface_to_rgb565`: premultiply r, g, b by
`a / 255` (truncating) when `a` is nonzero, then pack RGB565. -/
def rgb565_of_bgra (b g r a : Nat) : Nat :=
  let r := if a ≠ 0 then r * a / 255 else r
  let g := if a ≠ 0 then g * a / 255 else g
  let b := if a ≠ 0 then b * a / 255 else b
  ((r &&& 0xF8) <<< 8) ||| ((g &&& 0xFC) <<< 3) ||| (b >>> 3)

/-- The RGB565 packing alone (no alpha handling): top 5 bits of red, top 6
of green, top 5 of blue, red most significant. -/
def pack565 (b g r : Nat) : Nat :=
  ((r &&& 0xF8) <<< 8) ||| ((g &&& 0xFC) <<< 3) ||| (b >>> 3)

/-- `surface_to_rgb565`: a `(height, width)` matrix whose `[yy][xx]` entry
packs the four bytes at buffer offset `yy * stride + xx * 4`. -/
def surface_to_rgb565 (s : Surface) : List (List Nat) :=
  (List.range s.height).map (fun yy =>
    (List.range s.width).map (fun xx =>
      rgb565_of_bgra
        (s.data.getD (yy * s.stride + xx * 4) 0)
        (s.data.getD (yy * s.stride + xx * 4 + 1) 0)
        (s.data.getD (yy * s.stride + xx * 4 + 2) 0)
        (s.data.getD (yy * s.stride + xx * 4 + 3) 0)))

/-- C3: the Pixel Codec premultiplies each channel by `alpha/255`
(truncating) when alpha is nonzero and passes channels through unchanged
when alpha is zero, then packs RGB565; opaque white packs to `0xFFFF`,
opaque black to `0x0000`, and an alpha-0 pixel with color `(255,0,0)` packs
the raw red top 5 bits (`0xF800`); the output matrix has dimensions
`(height, width)` and entry `[yy][xx]` is computed from source pixel
`[yy][xx]` (the four bytes at offset `yy * stride + xx * 4`). -/
theorem pixel_codec_correct (s : Surface) :
    (∀ b g r a, a ≠ 0 →
        rgb565_of_bgra b g r a = pack565 (b * a / 255) (g * a / 255) (r * a / 255))
    ∧ (∀ b g r, rgb565_of_bgra b g r 0 = pack565 b g r)
    ∧ rgb565_of_bgra 255 255 255 255 = 0xFFFF
    ∧ rgb565_of_bgra 0 0 0 255 = 0x0000
    ∧ rgb565_of_bgra 0 0 255 0 = 0xF800
    ∧ (surface_to_rgb565 s).length = s.height
    ∧ (∀ row ∈ surface_to_rgb565 s, row.length = s.width)
    ∧ (∀ yy xx, yy < s.height → xx < s.width →
        ((surface_to_rgb565 s).getD yy []).getD xx 0 =
          rgb565_of_bgra
            (s.data.getD (yy * s.stride + xx * 4) 0)
            (s.data.getD (yy * s.stride + xx * 4 + 1) 0)
            (s.data.getD (yy * s.stride + xx * 4 + 2) 0)
            (s.data.getD (yy * s.stride + xx * 4 + 3) 0)) := by
  refine ⟨?_, ?_, by decide, by decide, by decide, ?_, ?_, ?_⟩
  · intro b g r a ha
    simp [rgb565_of_bgra, pack565, ha]
  · intro b g r
    simp [rgb565_of_bgra, pack565]
  · simp [surface_to_rgb565]
  · intro row hrow
    simp only [surface_to_rgb565, List.mem_map] at hrow
    obtain ⟨yy, _, hr⟩ := hrow
    rw [← hr]
    simp
  · intro yy xx hyy hxx
    have h1 : (surface_to_rgb565 s).getD yy [] =
        (List.range s.width).map (fun xx =>
          rgb565_of_bgra
            (s.data.getD (yy * s.stride + xx * 4) 0)
            (s.data.getD (yy * s.stride + xx * 4 + 1) 0)
            (s.data.getD (yy * s.stride + xx * 4 + 2) 0)
            (s.data.getD (yy * s.stride + xx * 4 + 3) 0)) := by
      unfold surface_to_rgb565
      rw [List.getD_eq_getElem?_getD, List.getElem?_map, List.getElem?_range hyy]
      rfl
    rw [h1, List.getD_eq_getElem?_getD, List.getElem?_map, List.getElem?_range hxx]
    rfl

/-- Witness for `pixel_codec_correct`: concrete premultiplication and a
concrete 1x1 surface. -/
theorem pixel_codec_correct_witness :
    rgb565_of_bgra 10 20 30 128 = pack565 (10 * 128 / 255) (20 * 128 / 255) (30 * 128 / 255)
    ∧ (surface_to_rgb565 ⟨1, 1, 4, [9, 8, 7, 255]⟩).length = 1
    ∧ ((surface_to_rgb565 ⟨1, 1, 4, [9, 8, 7, 255]⟩).getD 0 []).getD 0 0 =
        rgb565_of_bgra 9 8 7 255 := by
  refine ⟨(pixel_codec_correct ⟨1, 1, 4, [9, 8, 7, 255]⟩).1 10 20 30 128 (by decide),
    (pixel_codec_correct ⟨1, 1, 4, [9, 8, 7, 255]⟩).2.2.2.2.2.1, ?_⟩
  have h := (pixel_codec_correct ⟨1, 1, 4, [9, 8, 7, 255]⟩).2.2.2.2.2.2.2 0 0
    (by decide) (by decide)
  simpa using h

/-! ## Connection Registry & Router

Python `set` objects are modelled as duplicate-free `List Nat` (connections
are natural-number handles): `set.add` is `List.insert` (no-op when already
present), `set.discard` is `List.erase`, and `list(s)` — the snapshot taken
before iterating — is the list itself. -/

/-- Status-event levels used by `broadcast_status`. -/
inductive Level where
  | info
  | warn
  | error
deriving DecidableEq

/-- The two module-level registry sets (`esp32_clients` and
`browser_clients`). -/
structure Registry where
  esp32_clients : List Nat
  browser_clients : List Nat
deriving DecidableEq

/-- `broadcast_status`: iterate a snapshot of `browser_clients`, attempt
one `send_str` per member (`fails` is the send-failure oracle), collect the
failures in `dead` and discard them from the set afterwards.  Returns the
successful recipients (in snapshot order) and the new set. -/
def broadcast_status (fails : Nat → Bool) (browsers : List Nat) :
    List Nat × List Nat :=
  let dead := browsers.filter (fun ws => fails ws)
  (browsers.filter (fun ws => !fails ws), dead.foldl List.erase browsers)

/-- `send_segment`: build the packet, attempt one `send_bytes` per member
of a snapshot of `esp32_clients`, discard the failures.  There is no
empty-set check: no status event is ever emitted by `send_segment`. -/
def send_segment_run (fails : Nat → Bool) (esp32s : List Nat) (pkt : List Nat) :
    List (Nat × List Nat) × List Nat × List (String × Level) :=
  let dead := esp32s.filter (fun ws => fails ws)
  ((esp32s.filter (fun ws => !fails ws)).map (fun ws => (ws, pkt)),
   dead.foldl List.erase esp32s,
   [])

/-- The `hello` handshake branch of `websocket_handler`: role `browser`
moves the connection into `browser_clients` and out of `esp32_clients`,
role `esp32` the reverse; any other role only broadcasts
`Unknown hello role` at the default `info` level.  Returns the registry
after the branch's own mutations plus the `(message, level)` broadcasts it
issues. -/
def handle_hello (r : Registry) (ws : Nat) (role : String) :
    Registry × List (String × Level) :=
  if role = "browser" then
    ({ esp32_clients := r.esp32_clients.erase ws,
       browser_clients := r.browser_clients.insert ws },
     [("Browser registered", Level.info)])
  else if role = "esp32" then
    ({ esp32_clients := r.esp32_clients.insert ws,
       browser_clients := r.browser_clients.erase ws },
     [("ESP32 registered", Level.info)])
  else
    (r, [("Unknown hello role: " ++ role, Level.info)])

/-- The registry actions of `websocket_handler`: `regDefault` is the
`esp32_clients.add(ws)` on accept, the two hello cases are the handshake
branch, `unregister` is the `finally` block discarding `ws` from both
sets. -/
inductive RegOp where
  | regDefault (ws : Nat)
  | helloBrowser (ws : Nat)
  | helloEsp32 (ws : Nat)
  | unregister (ws : Nat)

def applyOp (r : Registry) : RegOp → Registry
  | .regDefault ws => { r with esp32_clients := r.esp32_clients.insert ws }
  | .helloBrowser ws => (handle_hello r ws "browser").1
  | .helloEsp32 ws => (handle_hello r ws "esp32").1
  | .unregister ws => { esp32_clients := r.esp32_clients.erase ws,
                        browser_clients := r.browser_clients.erase ws }

/-- Registry states reachable from the initial empty sets by handler
operations; `regDefault` only ever runs on a freshly accepted connection,
which is in neither set. -/
inductive Reachable : Registry → Prop where
  | init : Reachable ⟨[], []⟩
  | regDefault (r : Registry) (ws : Nat) : Reachable r →
      ws ∉ r.esp32_clients → ws ∉ r.browser_clients →
      Reachable (applyOp r (.regDefault ws))
  | helloBrowser (r : Registry) (ws : Nat) : Reachable r →
      Reachable (applyOp r (.helloBrowser ws))
  | helloEsp32 (r : Registry) (ws : Nat) : Reachable r →
      Reachable (applyOp r (.helloEsp32 ws))
  | unregister (r : Registry) (ws : Nat) : Reachable r →
      Reachable (applyOp r (.unregister ws))

/-- No connection is in both registry sets at once. -/
def DisjointSets (r : Registry) : Prop :=
  ∀ c, ¬ (c ∈ r.esp32_clients ∧ c ∈ r.browser_clients)

/-- Both registry lists are duplicate-free (they model Python sets) and
disjoint. -/
def WFRegistry (r : Registry) : Prop :=
  r.esp32_clients.Nodup ∧ r.browser_clients.Nodup ∧ DisjointSets r

theorem mem_foldl_erase (l : List Nat) :
    ∀ (s : List Nat), s.Nodup →
      ∀ c, c ∈ l.foldl List.erase s ↔ c ∈ s ∧ c ∉ l := by
  induction l with
  | nil => intro s _ c; simp
  | cons a l ih =>
    intro s hs c
    simp only [List.foldl_cons, ih (s.erase a) (hs.erase a), List.mem_cons]
    rw [hs.mem_erase_iff]
    constructor
    · rintro ⟨⟨hne, hmem⟩, hnl⟩
      exact ⟨hmem, fun h => h.elim (fun h1 => hne h1) (fun h2 => hnl h2)⟩
    · rintro ⟨hmem, h⟩
      exact ⟨⟨fun h1 => h (Or.inl h1), hmem⟩, fun h2 => h (Or.inr h2)⟩

/-- C8: `broadcast_status` attempts delivery to every member of the
snapshot exactly once (the duplicate-free snapshot is the whole set); a
recipient gets the event iff its send succeeds, and survives in the set iff
its send succeeds; for 3 controllers of which exactly one fails there are 2
successful deliveries, the failed connection is removed and the other two
remain. -/
theorem broadcast_best_effort (fails : Nat → Bool) (browsers : List Nat)
    (hnd : browsers.Nodup) :
    (∀ c, c ∈ (broadcast_status fails browsers).1 ↔ c ∈ browsers ∧ fails c = false)
    ∧ (∀ c, c ∈ (broadcast_status fails browsers).2 ↔ c ∈ browsers ∧ fails c = false)
    ∧ (broadcast_status fails browsers).1.Nodup
    ∧ (broadcast_status (fun ws => ws == 2) [1, 2, 3]).1.length = 2
    ∧ (broadcast_status (fun ws => ws == 2) [1, 2, 3]).2 = [1, 3] := by
  refine ⟨?_, ?_, hnd.filter _, by decide, by decide⟩
  · intro c
    show c ∈ browsers.filter (fun ws => !fails ws) ↔ _
    rw [List.mem_filter]
    simp
  · intro c
    show c ∈ (browsers.filter (fun ws => fails ws)).foldl List.erase browsers ↔ _
    rw [mem_foldl_erase _ browsers hnd, List.mem_filter]
    constructor
    · rintro ⟨hs, h⟩
      refine ⟨hs, ?_⟩
      by_contra hf
      exact h ⟨hs, by simpa using hf⟩
    · rintro ⟨hs, hf⟩
      exact ⟨hs, fun h => by simp [hf] at h⟩

/-- Witness for `broadcast_best_effort` at the concrete 3-controller
registry with connection 2 failing. -/
theorem broadcast_best_effort_witness :
    ((1 : Nat) ∈ (broadcast_status (fun ws => ws == 2) [1, 2, 3]).2
      ∧ (2 : Nat) ∉ (broadcast_status (fun ws => ws == 2) [1, 2, 3]).2)
    ∧ (broadcast_status (fun ws => ws == 2) [1, 2, 3]).1.length = 2 := by
  have h := broadcast_best_effort (fun ws => ws == 2) [1, 2, 3] (by decide)
  refine ⟨⟨?_, ?_⟩, h.2.2.2.1⟩
  · exact (h.2.1 1).mpr ⟨by decide, by decide⟩
  · intro hmem
    have h2 := (h.2.1 2).mp hmem
    exact absurd h2.2 (by decide)

/-- Counterexample to C5 as stated: forwarding a packet with an empty
`Devices` set emits zero status events, not exactly one warn-level event. -/
theorem send_segment_empty_counterexample :
    (send_segment_run (fun _ => false) [] [83, 71]).2.2 = []
    ∧ ¬ ((send_segment_run (fun _ => false) [] [83, 71]).2.2.length = 1) := by
  exact ⟨rfl, by decide⟩

/-- C5 amended: forwarding while `Devices` is empty delivers zero packets
and emits zero status events — the drop is silent (`send_segment` has no
empty-set check, so nothing reports it). -/
theorem send_segment_empty_silent (fails : Nat → Bool) (pkt : List Nat) :
    (send_segment_run fails [] pkt).1 = []
    ∧ (send_segment_run fails [] pkt).2.2 = [] :=
  ⟨rfl, rfl⟩

/-- Inbound text messages as far as the dispatcher's parse step sees them:
either `json.loads` raises (`unparseable`, carrying the raw text) or it
yields a payload whose `type` is `hello` with an optional `role` field.
The `command`/render branch and binary branch are modelled separately. -/
inductive InboundText where
  | unparseable (raw : String)
  | hello (role : Option String)

/-- The text branch of `websocket_handler` for the modelled message forms:
on a JSON parse failure it broadcasts `Bad JSON: <raw>` at error level and
continues the loop; on `hello` it runs the handshake branch (with the role
defaulting to `unknown`).  Returns the registry after the branch's own
mutations, the broadcasts issued, and whether the message loop continues. -/
def dispatch_text (r : Registry) (ws : Nat) : InboundText →
    Registry × List (String × Level) × Bool
  | .unparseable raw => (r, [("Bad JSON: " ++ raw, Level.error)], true)
  | .hello role =>
      let res := handle_hello r ws (role.getD "unknown")
      (res.1, res.2, true)

/-- Counterexample to C6 as stated: the status event broadcast for an
unparseable text message carries level `error` and message
`Bad JSON: <raw>`, not the raw text at `info` level. -/
theorem bad_json_counterexample :
    (dispatch_text ⟨[], []⟩ 1 (.unparseable "xyz")).2.1 =
      [("Bad JSON: xyz", Level.error)]
    ∧ ¬ ((dispatch_text ⟨[], []⟩ 1 (.unparseable "xyz")).2.1 =
      [("xyz", Level.info)]) := by
  constructor
  · rfl
  · intro h
    have h2 : Level.error = Level.info :=
      congrArg (fun l => (l.headD ("", Level.info)).2) h
    exact Level.noConfusion h2

/-- C6 amended: for every inbound text message whose payload fails to
parse, the dispatcher broadcasts exactly one status event, at error level,
whose message is `Bad JSON: ` followed by the raw text; the registry is
untouched, the message is dropped and the loop continues. -/
theorem bad_json_amended (r : Registry) (ws : Nat) (raw : String) :
    (dispatch_text r ws (.unparseable raw)).1 = r
    ∧ (dispatch_text r ws (.unparseable raw)).2.1 =
        [("Bad JSON: " ++ raw, Level.error)]
    ∧ (dispatch_text r ws (.unparseable raw)).2.2 = true :=
  ⟨rfl, rfl, rfl⟩

/-- C9: a `hello` whose role is neither `browser` nor `esp32` leaves both
registry sets exactly as they were and only broadcasts one status event at
the default `info` level (`Unknown hello role: <role>`); in particular a
missing role field defaults to `unknown` and takes this branch. -/
theorem unknown_hello_role_no_mutation (r : Registry) (ws : Nat) (role : String)
    (h1 : role ≠ "browser") (h2 : role ≠ "esp32") :
    (handle_hello r ws role).1 = r
    ∧ (handle_hello r ws role).2 = [("Unknown hello role: " ++ role, Level.info)]
    ∧ (dispatch_text r ws (.hello none)).1 = r := by
  refine ⟨?_, ?_, ?_⟩
  · unfold handle_hello
    rw [if_neg h1, if_neg h2]
  · unfold handle_hello
    rw [if_neg h1, if_neg h2]
  · show (handle_hello r ws ((none : Option String).getD "unknown")).1 = r
    unfold handle_hello
    rw [if_neg (by decide), if_neg (by decide)]

/-- Witness for `unknown_hello_role_no_mutation` at a concrete registry and
role. -/
theorem unknown_hello_role_no_mutation_witness :
    (handle_hello ⟨[1], [2]⟩ 1 "weird").1 = ⟨[1], [2]⟩
    ∧ (handle_hello ⟨[1], [2]⟩ 1 "weird").2 =
        [("Unknown hello role: weird", Level.info)] := by
  have h := unknown_hello_role_no_mutation ⟨[1], [2]⟩ 1 "weird"
    (by decide) (by decide)
  exact ⟨h.1, h.2.1.trans (by rfl)⟩

/-- C7: after the `browser` handshake the connection is in `Controllers`
and not in `Devices`; a subsequent `esp32` handshake reverses this with no
duplication; and every registry state reachable by handler operations (with
`regDefault` applied only to freshly accepted connections) is well-formed:
duplicate-free sets that are disjoint — no connection is ever in both. -/
theorem registry_sets_disjoint (r : Registry) (ws : Nat) (hwf : WFRegistry r) :
    (ws ∈ (applyOp r (.helloBrowser ws)).browser_clients
      ∧ ws ∉ (applyOp r (.helloBrowser ws)).esp32_clients)
    ∧ (ws ∈ (applyOp (applyOp r (.helloBrowser ws)) (.helloEsp32 ws)).esp32_clients
      ∧ ws ∉ (applyOp (applyOp r (.helloBrowser ws)) (.helloEsp32 ws)).browser_clients)
    ∧ (∀ r' : Registry, Reachable r' → WFRegistry r') := by
  obtain ⟨hnd1, hnd2, _⟩ := hwf
  have happ1 : applyOp r (.helloBrowser ws) =
      { esp32_clients := r.esp32_clients.erase ws,
        browser_clients := r.browser_clients.insert ws } := rfl
  have happ2 : ∀ r0 : Registry, applyOp r0 (.helloEsp32 ws) =
      { esp32_clients := r0.esp32_clients.insert ws,
        browser_clients := r0.browser_clients.erase ws } := fun _ => rfl
  refine ⟨⟨?_, ?_⟩, ⟨?_, ?_⟩, ?_⟩
  · rw [happ1]
    exact List.mem_insert_self ws _
  · rw [happ1]
    intro hmem
    exact absurd ((hnd1.mem_erase_iff.mp hmem).1) (by simp)
  · rw [happ2]
    exact List.mem_insert_self ws _
  · rw [happ2, happ1]
    intro hmem
    have hnd2' : (r.browser_clients.insert ws).Nodup := hnd2.insert
    exact absurd ((hnd2'.mem_erase_iff.mp hmem).1) (by simp)
  · intro r' hreach
    induction hreach with
    | init => exact ⟨List.nodup_nil, List.nodup_nil, fun c hc => by simp at hc⟩
    | regDefault r0 w _ hw1 hw2 ih =>
      obtain ⟨ih1, ih2, ihd⟩ := ih
      refine ⟨ih1.insert, ih2, fun c hc => ?_⟩
      obtain ⟨hc1, hc2⟩ := hc
      simp only [applyOp] at hc1 hc2
      rw [List.mem_insert_iff] at hc1
      rcases hc1 with hceq | hc1
      · exact hw2 (hceq ▸ hc2)
      · exact ihd c ⟨hc1, hc2⟩
    | helloBrowser r0 w _ ih =>
      obtain ⟨ih1, ih2, ihd⟩ := ih
      have happ : applyOp r0 (.helloBrowser w) =
          { esp32_clients := r0.esp32_clients.erase w,
            browser_clients := r0.browser_clients.insert w } := rfl
      rw [happ]
      refine ⟨ih1.erase w, ih2.insert, fun c hc => ?_⟩
      obtain ⟨hc1, hc2⟩ := hc
      rw [ih1.mem_erase_iff] at hc1
      rw [List.mem_insert_iff] at hc2
      rcases hc2 with hceq | hc2
      · exact hc1.1 hceq
      · exact ihd c ⟨hc1.2, hc2⟩
    | helloEsp32 r0 w _ ih =>
      obtain ⟨ih1, ih2, ihd⟩ := ih
      have happ : applyOp r0 (.helloEsp32 w) =
          { esp32_clients := r0.esp32_clients.insert w,
            browser_clients := r0.browser_clients.erase w } := rfl
      rw [happ]
      refine ⟨ih1.insert, ih2.erase w, fun c hc => ?_⟩
      obtain ⟨hc1, hc2⟩ := hc
      rw [List.mem_insert_iff] at hc1
      rw [ih2.mem_erase_iff] at hc2
      rcases hc1 with hceq | hc1
      · exact hc2.1 hceq
      · exact ihd c ⟨hc1, hc2.2⟩
    | unregister r0 w _ ih =>
      obtain ⟨ih1, ih2, ihd⟩ := ih
      refine ⟨ih1.erase w, ih2.erase w, fun c hc => ?_⟩
      obtain ⟨hc1, hc2⟩ := hc
      simp only [applyOp] at hc1 hc2
      rw [ih1.mem_erase_iff] at hc1
      rw [ih2.mem_erase_iff] at hc2
      exact ihd c ⟨hc1.2, hc2.2⟩

/-- Witness for `registry_sets_disjoint`: starting from a concrete
well-formed registry, the handshake sequence lands where claimed, and a
concrete reachable state (register, become controller, become device
again) is well-formed. -/
theorem registry_sets_disjoint_witness :
    ((1 : Nat) ∈ (applyOp ⟨[1], [2]⟩ (.helloBrowser 1)).browser_clients
      ∧ (1 : Nat) ∉ (applyOp ⟨[1], [2]⟩ (.helloBrowser 1)).esp32_clients)
    ∧ WFRegistry (applyOp (applyOp (applyOp ⟨[], []⟩ (.regDefault 1))
        (.helloBrowser 1)) (.helloEsp32 1)) := by
  have h := registry_sets_disjoint ⟨[1], [2]⟩ 1
    ⟨by decide, by decide, fun c hc => by
      obtain ⟨hc1, hc2⟩ := hc
      rw [List.mem_singleton] at hc1 hc2
      omega⟩
  refine ⟨h.1, ?_⟩
  refine h.2.2 _ (Reachable.helloEsp32 _ 1 (Reachable.helloBrowser _ 1
    (Reachable.regDefault ⟨[], []⟩ 1 Reachable.init ?_ ?_)))
  · simp
  · simp

/-! ## Color parsing (`parse_color`) -/

/-- A Python value as far as `parse_color` inspects it: a list/tuple whose
elements are each modelled by the outcome of `int(v)` (`some k` on success,
`none` when the conversion raises), a string, or any other value. -/
inductive PyColor where
  | seq (elems : List (Option Int))
  | str (s : List Char)
  | other

/-- The codepoints Python's `str.isspace` recognizes; `str.strip()` removes
exactly these, and `int(s, 16)` accepts them around the digits. -/
def pyWhitespace : List Nat :=
  [0x9, 0xA, 0xB, 0xC, 0xD, 0x1C, 0x1D, 0x1E, 0x1F, 0x20, 0x85, 0xA0,
   0x1680, 0x2000, 0x2001, 0x2002, 0x2003, 0x2004, 0x2005, 0x2006, 0x2007,
   0x2008, 0x2009, 0x200A, 0x2028, 0x2029, 0x202F, 0x205F, 0x3000]

def pyIsSpace (c : Char) : Bool := pyWhitespace.contains c.toNat

/-- Python `s.strip()`: drop leading and trailing whitespace. -/
def pyStrip (s : List Char) : List Char :=
  ((s.dropWhile pyIsSpace).reverse.dropWhile pyIsSpace).reverse

/-- The first codepoint of every aligned block of ten Unicode decimal
digits (the digits `0`-`9` of each script, Unicode category Nd): CPython
normalizes any of them to its decimal value before parsing `int(s, base)`. -/
def pyDigitBlocks : List Nat :=
  [0x30, 0x660, 0x6F0, 0x7C0, 0x966, 0x9E6, 0xA66, 0xAE6, 0xB66, 0xBE6,
   0xC66, 0xCE6, 0xD66, 0xDE6, 0xE50, 0xED0, 0xF20, 0x1040, 0x1090, 0x17E0,
   0x1810, 0x1946, 0x19D0, 0x1A80, 0x1A90, 0x1B50, 0x1BB0, 0x1C40, 0x1C50,
   0xA620, 0xA8D0, 0xA900, 0xA9D0, 0xA9F0, 0xAA50, 0xABF0, 0xFF10, 0x104A0,
   0x10D30, 0x11066, 0x110F0, 0x11136, 0x111D0, 0x112F0, 0x11450, 0x114D0,
   0x11650, 0x116C0, 0x11730, 0x118E0, 0x11950, 0x11C50, 0x11D50, 0x11DA0,
   0x16A60, 0x16AC0, 0x16B50, 0x1D7CE, 0x1D7D8, 0x1D7E2, 0x1D7EC, 0x1D7F6,
   0x1E140, 0x1E2F0, 0x1E950, 0x1FBF0]

/-- The decimal value of a Unicode decimal digit, if `c` is one. -/
def pyDecimalVal? (c : Char) : Option Nat :=
  (pyDigitBlocks.find? (fun s => decide (s ≤ c.toNat ∧ c.toNat ≤ s + 9))).map
    (fun s => c.toNat - s)

/-- The value of one hex digit as `int(s, 16)` sees it: any Unicode decimal
digit (normalized to `0`-`9`), or ASCII `a`-`f` / `A`-`F` (letter digits
are not normalized, so only the ASCII ones parse). -/
def hexDigitVal? (c : Char) : Option Nat :=
  match pyDecimalVal? c with
  | some d => some d
  | none =>
    if 'a' ≤ c ∧ c ≤ 'f' then some (c.toNat - 'a'.toNat + 10)
    else if 'A' ≤ c ∧ c ≤ 'F' then some (c.toNat - 'A'.toNat + 10)
    else none

/-- Python `int(s, 16)` on a 2-character string: two hex digits, or one
hex digit with a leading ASCII sign or with whitespace on either side;
anything else raises (`none`). -/
def int16₂ (c1 c2 : Char) : Option Int :=
  match hexDigitVal? c1, hexDigitVal? c2 with
  | some d1, some d2 => some ((16 * d1 + d2 : Nat) : Int)
  | _, _ =>
    if pyIsSpace c1 then (hexDigitVal? c2).map (fun d => (d : Int))
    else if c1 = '+' then (hexDigitVal? c2).map (fun d => (d : Int))
    else if c1 = '-' then (hexDigitVal? c2).map (fun d => -(d : Int))
    else if pyIsSpace c2 then (hexDigitVal? c1).map (fun d => (d : Int))
    else none

/-- `c.strip()` with the leading `#` removed when present:
`c.strip()[1:] if c.strip().startswith("#") else c.strip()`. -/
def strippedHex (s : List Char) : List Char :=
  if (pyStrip s).head? = some '#' then (pyStrip s).drop 1 else pyStrip s

/-- The tuple `(int(s[0:2],16), int(s[2:4],16), int(s[4:6],16))` under the
surrounding try/except: `none` models the `except` path. -/
def parseHex6 : List Char → Option (Int × Int × Int)
  | [a, b, c, d, e, f] =>
      match int16₂ a b, int16₂ c d, int16₂ e f with
      | some r, some g, some bl => some (r, g, bl)
      | _, _, _ => none
  | _ => none

/-- `parse_color(c, fb)`: a 3-element list/tuple is clamped per component
with `max(0, min(255, int(v)))` (the whole comprehension falls back to `fb`
if any `int(v)` raises); otherwise a string is stripped, an optional `#` is
removed, and a 6-character remainder is parsed as three 2-digit hex fields;
everything else returns the fallback. -/
def parse_color (c : PyColor) (fb : Int × Int × Int) : Int × Int × Int :=
  match c with
  | .seq es =>
      if es.length = 3 then
        match es with
        | [some r, some g, some b] =>
            (max 0 (min 255 r), max 0 (min 255 g), max 0 (min 255 b))
        | _ => fb
      else fb
  | .str s =>
      if (strippedHex s).length = 6 then (parseHex6 (strippedHex s)).getD fb
      else fb
  | .other => fb

theorem parseHex6_none (a b c d e f : Char)
    (h : int16₂ a b = none ∨ int16₂ c d = none ∨ int16₂ e f = none) :
    parseHex6 [a, b, c, d, e, f] = none := by
  simp only [parseHex6]
  cases hab : int16₂ a b with
  | none => rfl
  | some v1 =>
    cases hcd : int16₂ c d with
    | none => rfl
    | some v2 =>
      cases hef : int16₂ e f with
      | none => rfl
      | some v3 =>
        exfalso
        rcases h with h1 | h1 | h1
        · rw [hab] at h1
          exact Option.noConfusion h1
        · rw [hcd] at h1
          exact Option.noConfusion h1
        · rw [hef] at h1
          exact Option.noConfusion h1

/-- C10: for every 3-element list/tuple whose components all convert to
integers, `parse_color` returns the components clamped into `[0, 255]`
(negatives become 0, values above 255 become 255, in-range values pass
through) and not the fallback; the fallback is returned for a 3-element
sequence exactly when some component's conversion fails, and for every
other malformed value: non-3-element sequences, non-list non-string
values, strings whose stripped `#`-less form is not 6 characters, and
6-character forms where some 2-character hex field fails to parse (while a
well-formed `#RRGGBB` string parses instead of falling back). -/
theorem parse_color_clamps (fb : Int × Int × Int) :
    (∀ r g b : Int, parse_color (.seq [some r, some g, some b]) fb =
        (max 0 (min 255 r), max 0 (min 255 g), max 0 (min 255 b)))
    ∧ (∀ v : Int, v < 0 → max 0 (min 255 v) = 0)
    ∧ (∀ v : Int, 255 < v → max 0 (min 255 v) = 255)
    ∧ (∀ v : Int, 0 ≤ v → v ≤ 255 → max 0 (min 255 v) = v)
    ∧ (∀ es : List (Option Int), es.length = 3 → none ∈ es →
        parse_color (.seq es) fb = fb)
    ∧ (∀ es : List (Option Int), es.length ≠ 3 → parse_color (.seq es) fb = fb)
    ∧ parse_color .other fb = fb
    ∧ (∀ s : List Char, (strippedHex s).length ≠ 6 → parse_color (.str s) fb = fb)
    ∧ (∀ s : List Char, ∀ a b c d e f : Char,
        strippedHex s = [a, b, c, d, e, f] →
        (int16₂ a b = none ∨ int16₂ c d = none ∨ int16₂ e f = none) →
        parse_color (.str s) fb = fb)
    ∧ parse_color (.str ['#', 'F', 'F', '0', '0', '8', '0']) fb = (255, 0, 128) := by
  refine ⟨?_, ?_, ?_, ?_, ?_, ?_, rfl, ?_, ?_, rfl⟩
  · intro r g b
    rfl
  · intro v hv
    omega
  · intro v hv
    omega
  · intro v hv1 hv2
    omega
  · intro es hlen hnone
    match es, hlen with
    | [a, b, c], _ =>
      show parse_color (.seq [a, b, c]) fb = fb
      match a, b, c, hnone with
      | none, b, c, _ => rfl
      | some _, none, c, _ => rfl
      | some _, some _, none, _ => rfl
      | some _, some _, some _, h => simp at h
  · intro es hlen
    show (if es.length = 3 then _ else fb) = fb
    rw [if_neg hlen]
  · intro s hlen
    show (if (strippedHex s).length = 6 then (parseHex6 (strippedHex s)).getD fb
          else fb) = fb
    rw [if_neg hlen]
  · intro s a b c d e f hs hnone
    show (if (strippedHex s).length = 6 then (parseHex6 (strippedHex s)).getD fb
          else fb) = fb
    rw [hs, if_pos (by rfl : ([a, b, c, d, e, f] : List Char).length = 6)]
    rw [parseHex6_none a b c d e f hnone]
    rfl

/-- Witness for `parse_color_clamps`: clamping at concrete out-of-range
components, and concrete fallback cases for sequences and for malformed
strings (wrong length, and a non-hex character). -/
theorem parse_color_clamps_witness :
    parse_color (.seq [some (-5), some 300, some 17]) (1, 2, 3) = (0, 255, 17)
    ∧ parse_color (.seq [some 0, none, some 2]) (1, 2, 3) = (1, 2, 3)
    ∧ parse_color (.seq [some 0, some 2]) (1, 2, 3) = (1, 2, 3)
    ∧ parse_color (.str ['#', 'F', 'F', 'F']) (1, 2, 3) = (1, 2, 3)
    ∧ parse_color (.str ['#', 'F', 'F', '0', '0', '8', 'z']) (1, 2, 3) = (1, 2, 3) := by
  have h := parse_color_clamps (1, 2, 3)
  refine ⟨?_, ?_, ?_, ?_, ?_⟩
  · rw [h.1 (-5) 300 17]
    decide
  · exact h.2.2.2.2.1 [some 0, none, some 2] (by decide) (by decide)
  · exact h.2.2.2.2.2.1 [some 0, some 2] (by decide)
  · exact h.2.2.2.2.2.2.2.1 ['#', 'F', 'F', 'F'] (by decide)
  · exact h.2.2.2.2.2.2.2.2.1 ['#', 'F', 'F', '0', '0', '8', 'z']
      'F' 'F' '0' '0' '8' 'z' (by decide) (Or.inr (Or.inr (by decide)))

/-! ## Script Segmenter (`detect_script`, `build_attrlist`)

Text is modelled as the list of its characters' codepoints. -/

/-- The three script categories. -/
inductive Script where
  | khmer
  | emoji
  | latin
deriving DecidableEq

/-- `detect_script(ch)` on the character's codepoint, branch for branch
(the explicit Latin ranges and the final fallback both return Latin). -/
def detect_script (cp : Nat) : Script :=
  if 0x1780 ≤ cp ∧ cp ≤ 0x17FF then .khmer
  else if (0x1F300 ≤ cp ∧ cp ≤ 0x1FAFF) ∨ (0x2600 ≤ cp ∧ cp ≤ 0x26FF) then .emoji
  else if cp ≤ 0x024F ∨ (0x1E00 ≤ cp ∧ cp ≤ 0x1EFF) then .latin
  else .latin

/-- `len(ch.encode("utf-8"))` for a codepoint. -/
def utf8Len (cp : Nat) : Nat :=
  if cp ≤ 0x7F then 1
  else if cp ≤ 0x7FF then 2
  else if cp ≤ 0xFFFF then 3
  else 4

/-- `byte_offsets[k]` of `build_attrlist`: the accumulated UTF-8 length of
the first `k` characters. -/
def byteOff (text : List Nat) (k : Nat) : Nat :=
  ((text.take k).map utf8Len).sum

/-- The run-merging loop of `build_attrlist` over character indices:
`buildRunsGo rest i prev start` processes the characters from index `i`
on, with an open run of script `prev` begun at index `start`; a script
change closes the open run, and the final append closes the last one. -/
def buildRunsGo : List Nat → Nat → Script → Nat → List (Nat × Nat × Script)
  | [], i, prev, start => [(start, i, prev)]
  | c :: rest, i, prev, start =>
      if detect_script c = prev then buildRunsGo rest (i + 1) prev start
      else (start, i, prev) :: buildRunsGo rest (i + 1) (detect_script c) i

/-- The character-index runs of `build_attrlist` (`prev` is `None` only
before the first character, so empty text yields no runs). -/
def buildRuns : List Nat → List (Nat × Nat × Script)
  | [] => []
  | c :: rest => buildRunsGo rest 1 (detect_script c) 0

/-- The byte-range runs that `build_attrlist` turns into Pango font
attributes: a char-index run `(a, b, script)` becomes
`(byte_offsets[a], byte_offsets[b], script)`. -/
def byteRuns (text : List Nat) : List (Nat × Nat × Script) :=
  (buildRuns text).map (fun r => (byteOff text r.1, byteOff text r.2.1, r.2.2))

/-- `Tiles a b runs`: the runs' half-open ranges exactly tile `[a, b)` in
order — each run starts where the previous ended, is nonempty, and the
last ends at `b` (so they are ordered, contiguous and non-overlapping). -/
def Tiles : Nat → Nat → List (Nat × Nat × Script) → Prop
  | a, b, [] => a = b
  | a, b, (s, e, _) :: rs => s = a ∧ a < e ∧ Tiles e b rs

/-- Adjacent runs carry different scripts (runs are maximally merged). -/
def AdjDistinct : List (Nat × Nat × Script) → Prop
  | r1 :: r2 :: rs => r1.2.2 ≠ r2.2.2 ∧ AdjDistinct (r2 :: rs)
  | _ => True

theorem tiles_le : ∀ (rs : List (Nat × Nat × Script)) (a b : Nat),
    Tiles a b rs → a ≤ b := by
  intro rs
  induction rs with
  | nil => intro a b h; exact Nat.le_of_eq h
  | cons r rs ih =>
    intro a b h
    obtain ⟨r1, r2, r3⟩ := r
    obtain ⟨hs, hlt, ht⟩ := h
    exact Nat.le_trans (Nat.le_of_lt hlt) (ih _ _ ht)

theorem tiles_sum : ∀ (rs : List (Nat × Nat × Script)) (a b : Nat),
    Tiles a b rs → (rs.map (fun r => r.2.1 - r.1)).sum = b - a := by
  intro rs
  induction rs with
  | nil =>
    intro a b h
    have h2 : a = b := h
    simp [h2]
  | cons r rs ih =>
    intro a b h
    obtain ⟨r1, r2, r3⟩ := r
    obtain ⟨hs, hlt, ht⟩ := h
    have hle := tiles_le rs r2 b ht
    simp only [List.map_cons, List.sum_cons, ih r2 b ht]
    subst hs
    omega

theorem buildRunsGo_tiles :
    ∀ (rest : List Nat) (i : Nat) (prev : Script) (start : Nat), start < i →
      Tiles start (i + rest.length) (buildRunsGo rest i prev start) := by
  intro rest
  induction rest with
  | nil =>
    intro i prev start hlt
    exact ⟨rfl, hlt, rfl⟩
  | cons c rest ih =>
    intro i prev start hlt
    simp only [buildRunsGo]
    by_cases h : detect_script c = prev
    · rw [if_pos h]
      have := ih (i + 1) prev start (by omega)
      have harith : i + 1 + rest.length = i + (c :: rest).length := by
        simp [List.length_cons]; omega
      rw [harith] at this
      exact this
    · rw [if_neg h]
      refine ⟨rfl, hlt, ?_⟩
      have := ih (i + 1) (detect_script c) i (by omega)
      have harith : i + 1 + rest.length = i + (c :: rest).length := by
        simp [List.length_cons]; omega
      rw [harith] at this
      exact this

theorem utf8Len_pos (cp : Nat) : 1 ≤ utf8Len cp := by
  unfold utf8Len
  split_ifs <;> omega

theorem byteOff_le_succ (text : List Nat) (j : Nat) :
    byteOff text j ≤ byteOff text (j + 1) := by
  unfold byteOff
  rw [List.take_succ, List.map_append, List.sum_append]
  omega

theorem byteOff_mono (text : List Nat) (k1 k2 : Nat) (h : k1 ≤ k2) :
    byteOff text k1 ≤ byteOff text k2 := by
  induction k2 with
  | zero =>
    have h0 : k1 = 0 := by omega
    rw [h0]
  | succ k ih =>
    rcases Nat.lt_or_ge k1 (k + 1) with hlt | hge
    · exact Nat.le_trans (ih (by omega)) (byteOff_le_succ text k)
    · have h0 : k1 = k + 1 := by omega
      rw [h0]

theorem byteOff_strict (text : List Nat) (k e : Nat) (h1 : k < e)
    (h2 : e ≤ text.length) : byteOff text k < byteOff text e := by
  have hsucc : byteOff text (k + 1) = byteOff text k + utf8Len (text.getD k 0) := by
    unfold byteOff
    rw [List.take_succ, List.map_append, List.sum_append]
    have hk : k < text.length := by omega
    rw [List.getElem?_eq_getElem hk]
    simp [List.getD, List.getElem?_eq_getElem hk]
  have hpos := utf8Len_pos (text.getD k 0)
  have hmono := byteOff_mono text (k + 1) e h1
  omega

theorem tiles_map_byte (text : List Nat) :
    ∀ (rs : List (Nat × Nat × Script)) (a b : Nat),
      Tiles a b rs → b ≤ text.length →
      Tiles (byteOff text a) (byteOff text b)
        (rs.map (fun r => (byteOff text r.1, byteOff text r.2.1, r.2.2))) := by
  intro rs
  induction rs with
  | nil =>
    intro a b h hb
    exact congrArg (byteOff text) h
  | cons r rs ih =>
    intro a b h hb
    obtain ⟨r1, r2, r3⟩ := r
    obtain ⟨hs, hlt, ht⟩ := h
    have he : r2 ≤ b := tiles_le rs r2 b ht
    subst hs
    exact ⟨rfl, byteOff_strict text r1 r2 hlt (by omega), ih r2 b ht hb⟩

theorem buildRunsGo_head_script :
    ∀ (rest : List Nat) (i : Nat) (prev : Script) (start : Nat),
      (buildRunsGo rest i prev start).head?.map (fun r => r.2.2) = some prev := by
  intro rest
  induction rest with
  | nil => intro i prev start; rfl
  | cons c rest ih =>
    intro i prev start
    simp only [buildRunsGo]
    by_cases h : detect_script c = prev
    · rw [if_pos h]
      exact ih (i + 1) prev start
    · rw [if_neg h]
      rfl

theorem adjDistinct_cons (x : Nat × Nat × Script) (l : List (Nat × Nat × Script))
    (h1 : AdjDistinct l)
    (h2 : ∀ r, l.head? = some r → x.2.2 ≠ r.2.2) : AdjDistinct (x :: l) := by
  cases l with
  | nil => trivial
  | cons y ys => exact ⟨h2 y rfl, h1⟩

theorem buildRunsGo_adjDistinct :
    ∀ (rest : List Nat) (i : Nat) (prev : Script) (start : Nat),
      AdjDistinct (buildRunsGo rest i prev start) := by
  intro rest
  induction rest with
  | nil => intro i prev start; trivial
  | cons c rest ih =>
    intro i prev start
    simp only [buildRunsGo]
    by_cases h : detect_script c = prev
    · rw [if_pos h]
      exact ih (i + 1) prev start
    · rw [if_neg h]
      refine adjDistinct_cons _ _ (ih (i + 1) (detect_script c) i) ?_
      intro r hr
      have hhead := buildRunsGo_head_script rest (i + 1) (detect_script c) i
      rw [hr] at hhead
      have hhead2 : some r.2.2 = some (detect_script c) := hhead
      have hhead3 := Option.some.inj hhead2
      intro hcontra
      exact h (by rw [← hhead3, ← hcontra])

theorem adjDistinct_map_byte (text : List Nat) :
    ∀ (rs : List (Nat × Nat × Script)), AdjDistinct rs →
      AdjDistinct (rs.map (fun r => (byteOff text r.1, byteOff text r.2.1, r.2.2))) := by
  intro rs
  induction rs with
  | nil => intro _; trivial
  | cons x rs ih =>
    intro h
    cases rs with
    | nil => trivial
    | cons y ys => exact ⟨h.1, ih h.2⟩

theorem buildRunsGo_chars :
    ∀ (rest text : List Nat) (i : Nat) (prev : Script) (start : Nat),
      rest = text.drop i →
      (∀ j, start ≤ j → j < i → detect_script (text.getD j 0) = prev) →
      ∀ r ∈ buildRunsGo rest i prev start, ∀ j, r.1 ≤ j → j < r.2.1 →
        detect_script (text.getD j 0) = r.2.2 := by
  intro rest
  induction rest with
  | nil =>
    intro text i prev start _ hprev r hr j hj1 hj2
    simp only [buildRunsGo] at hr
    rw [List.mem_singleton] at hr
    subst hr
    exact hprev j hj1 hj2
  | cons c rest ih =>
    intro text i prev start hdrop hprev r hr j hj1 hj2
    have hc : text.getD i 0 = c := by
      have h0 : text[i]? = some c := by
        have := List.getElem?_drop text i 0
        rw [← hdrop] at this
        simpa using this.symm
      simp [List.getD, h0]
    have hrest : rest = text.drop (i + 1) := by
      have := List.tail_drop text i
      rw [← hdrop] at this
      simpa using this
    simp only [buildRunsGo] at hr
    by_cases h : detect_script c = prev
    · rw [if_pos h] at hr
      refine ih text (i + 1) prev start hrest ?_ r hr j hj1 hj2
      intro j' hj'1 hj'2
      rcases Nat.lt_or_ge j' i with hcase | hcase
      · exact hprev j' hj'1 hcase
      · have : j' = i := by omega
        rw [this, hc, h]
    · rw [if_neg h] at hr
      rcases List.mem_cons.mp hr with hr1 | hr1
      · subst hr1
        exact hprev j hj1 hj2
      · refine ih text (i + 1) (detect_script c) i hrest ?_ r hr1 j hj1 hj2
        intro j' hj'1 hj'2
        have : j' = i := by omega
        rw [this, hc]

/-- C4: the Script Segmenter's byte-range runs exactly tile
`[0, utf8_byte_length(text))` in order (contiguous, non-overlapping), and
their lengths sum to the UTF-8 byte length; characters are classified
Khmer on U+1780-U+17FF, Emoji on U+1F300-U+1FAFF and U+2600-U+26FF, else
Latin; every character inside a run has the run's classification and
adjacent runs differ (consecutive same-classification characters are
merged); empty text yields no runs and single-character text yields
exactly one run. -/
theorem script_segmenter_correct (text : List Nat) :
    Tiles 0 (byteOff text text.length) (byteRuns text)
    ∧ ((byteRuns text).map (fun r => r.2.1 - r.1)).sum = (text.map utf8Len).sum
    ∧ AdjDistinct (byteRuns text)
    ∧ (∀ cp, detect_script cp =
        if 0x1780 ≤ cp ∧ cp ≤ 0x17FF then Script.khmer
        else if (0x1F300 ≤ cp ∧ cp ≤ 0x1FAFF) ∨ (0x2600 ≤ cp ∧ cp ≤ 0x26FF) then
          Script.emoji
        else Script.latin)
    ∧ (∀ r ∈ buildRuns text, ∀ j, r.1 ≤ j → j < r.2.1 →
        detect_script (text.getD j 0) = r.2.2)
    ∧ (text = [] → byteRuns text = [])
    ∧ (∀ c, text = [c] → byteRuns text = [(0, utf8Len c, detect_script c)]) := by
  have htiles_char : Tiles 0 text.length (buildRuns text) := by
    cases text with
    | nil => rfl
    | cons c rest =>
      have := buildRunsGo_tiles rest 1 (detect_script c) 0 (by omega)
      have harith : 1 + rest.length = (c :: rest).length := by
        simp [List.length_cons]; omega
      rw [harith] at this
      exact this
  have htiles : Tiles 0 (byteOff text text.length) (byteRuns text) := by
    have := tiles_map_byte text (buildRuns text) 0 text.length htiles_char
      (Nat.le_refl _)
    simpa [byteRuns, byteOff] using this
  refine ⟨htiles, ?_, ?_, ?_, ?_, ?_, ?_⟩
  · have := tiles_sum (byteRuns text) 0 (byteOff text text.length) htiles
    rw [this]
    simp [byteOff]
  · apply adjDistinct_map_byte
    cases text with
    | nil => trivial
    | cons c rest => exact buildRunsGo_adjDistinct rest 1 (detect_script c) 0
  · intro cp
    unfold detect_script
    by_cases h1 : 0x1780 ≤ cp ∧ cp ≤ 0x17FF
    · simp [h1]
    · by_cases h2 : (0x1F300 ≤ cp ∧ cp ≤ 0x1FAFF) ∨ (0x2600 ≤ cp ∧ cp ≤ 0x26FF)
      · simp [h1, h2]
      · simp [h1, h2]
  · cases text with
    | nil => intro r hr; simp [buildRuns] at hr
    | cons c rest =>
      refine buildRunsGo_chars rest (c :: rest) 1 (detect_script c) 0 rfl ?_
      intro j hj1 hj2
      have : j = 0 := by omega
      rw [this]
      rfl
  · intro h
    rw [h]
    rfl
  · intro c h
    rw [h]
    rfl

/-- Witness for `script_segmenter_correct` is not needed (no top-level
hypotheses), but the inner implications are exercised on the mixed text
`Aខ😀` (Latin, Khmer, Emoji): three runs tiling the 8-byte UTF-8 length. -/
theorem script_segmenter_correct_witness :
    Tiles 0 8 (byteRuns [65, 0x1780, 0x1F600])
    ∧ byteRuns [65, 0x1780] = [(0, 1, Script.latin), (1, 4, Script.khmer)]
    ∧ byteRuns [] = []
    ∧ byteRuns [0x1780] = [(0, 3, Script.khmer)] := by
  refine ⟨?_, by decide, ?_, ?_⟩
  · have h := (script_segmenter_correct [65, 0x1780, 0x1F600]).1
    have hb : byteOff [65, 0x1780, 0x1F600] ([65, 0x1780, 0x1F600].length) = 8 := by
      decide
    rw [hb] at h
    exact h
  · exact (script_segmenter_correct []).2.2.2.2.2.1 rfl
  · exact (script_segmenter_correct [0x1780]).2.2.2.2.2.2 0x1780 rfl

end SignBoard
